import Mathlib

/-!
Verification of the `diurne` lexer (`src/parser.rs`) against its
natural-language specification.

The lexer tokenizes a small tag/filter expression language while tracking
line, column and byte offsets.  The embedding below follows the source
file `src/parser.rs` closely:

* `TokenKind`, `Span`, `Token`, `Tokenizer` mirror the data types
  (`Span.end` is renamed `stop` because `end` is a Lean keyword;
  `line`/`column` are `u16` and `start`/`end` are `u32` in the source, so
  all updates are taken modulo `U16 = 2^16` resp. `U32 = 2^32`, the
  wrapping semantics of the release build);
* the tokenizer's iterator `Peekable<CharIndices>` is modelled as the
  list of remaining `(byte index, character)` pairs
  (`charIndicesFrom 0 input`), with `peek` returning the head;
* `bump`, `make_token`, `scan_until`, `scan_spaces`, `scan_ident`,
  `scan_digits` and `next` are the corresponding functions of
  `impl Tokenizer` / `impl Iterator for Tokenizer`;
* the `assert_eq!(Some('\n'), self.source.next())` in `bump`
  (parser.rs:86) is a process abort on inputs where a carriage return is
  not followed by a line feed; aborts are modelled as `none`, and
  propagate through every caller;
* `tokenize` drains the iterator, collecting the produced tokens, as an
  iterator consumer would.

The source file is written in a pseudo-Rust whose control-flow quirks the
spec (§9) instructs to read as ordinary conditionals and matches; the
embedding does so.  One function, `Tokenizer::is_ident`, is referenced at
parser.rs:50 but defined nowhere in the repository; it is modelled from
the spec (see its doc comment).
-/

namespace Diurne

/-- Modulus of the `u16` fields `line` and `column` of `Span`. -/
def U16 : Nat := 65536

/-- Modulus of the `u32` fields `start` and `end` of `Span`. -/
def U32 : Nat := 4294967296

/-- Token kinds, parser.rs:1-9. -/
inductive TokenKind where
  | Ident
  | Digits
  | Colon
  | Star
  | Dot
  | Spaces
deriving Repr, DecidableEq

/-- Spans, parser.rs:11-17.  The source field `end` is renamed `stop`
(`end` is a Lean keyword).  `column`/`line` are `u16`, `start`/`stop` are
`u32` in the source; here they are naturals kept below the modulus by the
operations. -/
structure Span where
  column : Nat
  line : Nat
  start : Nat
  stop : Nat
deriving Repr, DecidableEq

/-- Tokens, parser.rs:19-22. -/
structure Token where
  kind : TokenKind
  span : Span
deriving Repr, DecidableEq

/-- Number of bytes of the UTF-8 encoding of a character, used by
`CharIndices` to advance the byte index. -/
def charWidth (c : Char) : Nat :=
  if c.toNat < 0x80 then 1
  else if c.toNat < 0x800 then 2
  else if c.toNat < 0x10000 then 3
  else 4

/-- The model of `str::char_indices`: the list of (byte offset,
character) pairs of a text, offsets starting at `i`. -/
def charIndicesFrom (i : Nat) : List Char → List (Nat × Char)
  | [] => []
  | c :: cs => (i, c) :: charIndicesFrom (i + charWidth c) cs

/-- Tokenizer state, parser.rs:24-30: the peekable `CharIndices` iterator
(modelled as the list of remaining entries) plus the `u16` line/column
counters. -/
structure Tokenizer where
  source : List (Nat × Char)
  column : Nat
  line : Nat
deriving Repr, DecidableEq

/-- The constructor `Tokenizer::new`, parser.rs:33-41 (its body reads
`source` where the freshly built `char_indices().peekable()` iterator is
meant). -/
def Tokenizer.new (s : List Char) : Tokenizer :=
  { source := charIndicesFrom 0 s, column := 0, line := 0 }

/-- The lookahead `Tokenizer::peek`, parser.rs:73-75 (used throughout as
yielding the `(byte index, char)` pair of the iterator). -/
def peek (t : Tokenizer) : Option (Nat × Char) :=
  t.source.head?

/-- Line-break classification `Tokenizer::is_break`, parser.rs:107-115:
line feed (U+000A), carriage return (U+000D), line separator (U+2028) and
paragraph separator (U+2029). -/
def is_break (c : Char) : Bool :=
  c.toNat = 10 || c.toNat = 13 || c.toNat = 8232 || c.toNat = 8233

/-- Rust's `char::is_whitespace`, the Unicode `White_Space` property,
used by `scan_spaces` (parser.rs:45) and `next` (parser.rs:141). -/
def is_whitespace (c : Char) : Bool :=
  c.toNat = 0x20 || (0x9 ≤ c.toNat && c.toNat ≤ 0xD) || c.toNat = 0x85 ||
  c.toNat = 0xA0 || c.toNat = 0x1680 || (0x2000 ≤ c.toNat && c.toNat ≤ 0x200A) ||
  c.toNat = 0x2028 || c.toNat = 0x2029 || c.toNat = 0x202F || c.toNat = 0x205F ||
  c.toNat = 0x3000

/-- Decimal-digit classification `c.is_digit()` of parser.rs:55,142,
i.e. the ASCII digits `'0'..='9'` (code points 48-57). -/
def is_digit (c : Char) : Bool :=
  48 ≤ c.toNat && c.toNat ≤ 57

/-- Modelled from the spec: `Tokenizer::is_ident` is referenced at
parser.rs:50 but not defined anywhere in the repository.  Per the spec
(§4.2 step 5 and §7), an identifier constituent is any character that is
not one of the punctuation characters `:`, `*`, `.`, not whitespace and
not a decimal digit — unclassified characters fall through to
`Identifier`. -/
def is_ident (c : Char) : Bool :=
  !(c = ':' || c = '*' || c = '.' || is_whitespace c || is_digit c)

/-- The cursor advance `Tokenizer::bump`, parser.rs:77-94.  It consumes
one character, increments `column` (wrapping, `u16`); on a line break it
increments `line` and resets `column` to 0, and on a carriage return it
additionally runs `assert_eq!(Some('\n'), self.source.next())`
(parser.rs:86), consuming the following character and **aborting the
process** unless that character is a line feed.  The abort is modelled as
`none`. -/
def bump (t : Tokenizer) : Option (Option Char × Tokenizer) :=
  match t.source with
  | [] => some (none, t)
  | (_, c) :: rest =>
    if is_break c then
      if c = '\r' then
        match rest with
        | (_, c2) :: rest2 =>
          if c2 = '\n' then
            some (some c, { source := rest2, column := 0, line := (t.line + 1) % U16 })
          else none
        | [] => none
      else
        some (some c, { source := rest, column := 0, line := (t.line + 1) % U16 })
    else
      some (some c, { source := rest, column := (t.column + 1) % U16, line := t.line })

/-- The token assembly `Tokenizer::make_token`, parser.rs:96-105: builds
a token from the given byte range and kind and the tokenizer's *current*
`column`/`line` (the `kind` parameter is the evident intent of the
constructor, whose literal text omits the field). -/
def make_token (t : Tokenizer) (start stop : Nat) (kind : TokenKind) : Token :=
  { kind := kind,
    span := { column := t.column, line := t.line, start := start, stop := stop } }

/-- The loop body of `Tokenizer::scan_until`, parser.rs:59-71, with the
local `last` made a parameter:  while the peeked character does not
satisfy `u`, record its byte index in `last` (cast to `u32`) and `bump`;
on exit return the range `start..(last + 1)` (wrapping `u32`
arithmetic). -/
def scan_until_loop (t : Tokenizer) (start last : Nat) (u : Char → Bool) :
    Option (Nat × Nat × Tokenizer) :=
  match hp : peek t with
  | none => some (start, (last + 1) % U32, t)
  | some (idx, c) =>
    if u c then some (start, (last + 1) % U32, t)
    else
      match hb : bump t with
      | none => none
      | some (_, t') => scan_until_loop t' start (idx % U32) u
termination_by t.source.length
decreasing_by
  simp only [peek, List.head?, bump] at hp hb
  rcases hs : t.source with _ | ⟨⟨j, d⟩, rest⟩
  · simp [hs] at hp
  · simp only [hs] at hp hb
    split at hb
    · split at hb
      · rcases rest with _ | ⟨⟨j2, d2⟩, rest2⟩
        · simp at hb
        · by_cases hd2 : d2 = '\n'
          · subst hd2
            simp at hb
            simp [← hb.2, hs]
            omega
          · simp [hd2] at hb
      · simp at hb
        simp [← hb.2, hs]
    · simp at hb
      simp [← hb.2, hs]

/-- The scanner `Tokenizer::scan_until`, parser.rs:59-71: `let mut last =
start;` followed by the loop. -/
def scan_until (t : Tokenizer) (start : Nat) (u : Char → Bool) :
    Option (Nat × Nat × Tokenizer) :=
  scan_until_loop t start start u

/-- The run scanner `Tokenizer::scan_spaces`, parser.rs:44-47: scan while
whitespace continues, then build a `Spaces` token (note: from the
tokenizer state *after* the scan). -/
def scan_spaces (t : Tokenizer) (start : Nat) : Option (Token × Tokenizer) :=
  match scan_until t start (fun c => !(is_whitespace c)) with
  | none => none
  | some (s, e, t') => some (make_token t' s e TokenKind.Spaces, t')

/-- The run scanner `Tokenizer::scan_ident`, parser.rs:49-52. -/
def scan_ident (t : Tokenizer) (start : Nat) : Option (Token × Tokenizer) :=
  match scan_until t start (fun c => !(is_ident c)) with
  | none => none
  | some (s, e, t') => some (make_token t' s e TokenKind.Ident, t')

/-- The run scanner `Tokenizer::scan_digits`, parser.rs:54-57. -/
def scan_digits (t : Tokenizer) (start : Nat) : Option (Token × Tokenizer) :=
  match scan_until t start (fun c => !(is_digit c)) with
  | none => none
  | some (s, e, t') => some (make_token t' s e TokenKind.Digits, t')

/-- One pull of the iterator, `Iterator::next` for `Tokenizer`,
parser.rs:121-150: classify the peeked character (the `start` byte index
is cast to `u32`), emitting a single-character `Colon`/`Star`/`Dot` token
for punctuation (token built *before* the `bump`), or scanning a run of
whitespace, digits or identifier constituents.  Returns `some none` at
end of input, and `none` for an abort bubbling up from `bump`. -/
def next (t : Tokenizer) : Option (Option (Token × Tokenizer)) :=
  match peek t with
  | none => some none
  | some (idx, c) =>
    let start := idx % U32
    if c = ':' then
      match bump t with
      | none => none
      | some (_, t') =>
        some (some (make_token t start ((start + 1) % U32) TokenKind.Colon, t'))
    else if c = '*' then
      match bump t with
      | none => none
      | some (_, t') =>
        some (some (make_token t start ((start + 1) % U32) TokenKind.Star, t'))
    else if c = '.' then
      match bump t with
      | none => none
      | some (_, t') =>
        some (some (make_token t start ((start + 1) % U32) TokenKind.Dot, t'))
    else if is_whitespace c then
      match scan_spaces t start with
      | none => none
      | some (tok, t') => some (some (tok, t'))
    else if is_digit c then
      match scan_digits t start with
      | none => none
      | some (tok, t') => some (some (tok, t'))
    else
      match scan_ident t start with
      | none => none
      | some (tok, t') => some (some (tok, t'))

/-- One step of line/column bookkeeping as performed by `bump` for a
character that is not a carriage return: on a break the line increments
(wrapping `u16`) and the column resets, otherwise the column increments
(wrapping `u16`).  The pair is `(line, column)`. -/
def lcStep (lc : Nat × Nat) (c : Char) : Nat × Nat :=
  if is_break c then ((lc.1 + 1) % U16, 0) else (lc.1, (lc.2 + 1) % U16)

/-- Line/column bookkeeping across a list of consumed characters. -/
def lcAdv (lc : Nat × Nat) (cs : List Char) : Nat × Nat :=
  cs.foldl lcStep lc

/-- Byte length of a text, the sum of its characters' UTF-8 widths. -/
def byteLen : List Char → Nat
  | [] => 0
  | c :: cs => charWidth c + byteLen cs

/-- Inputs on which the code's byte accounting is exact: every character
is a single UTF-8 byte (ASCII) and none is a carriage return (code point
13). -/
def Good (cs : List Char) : Prop :=
  ∀ c ∈ cs, c.toNat < 128 ∧ c.toNat ≠ 13

instance decidableGood (cs : List Char) : Decidable (Good cs) :=
  List.decidableBAll _ cs

/-- The spans of a token list form a gapless, overlap-free chain of
nonempty byte ranges from `a` to `b`: the first token starts at `a`, each
token's `stop` is the next token's `start`, every range satisfies
`start < stop` and the last token stops at `b`. -/
def spanChainB : Nat → Nat → List Token → Bool
  | a, b, [] => a == b
  | a, b, tok :: ts =>
    (tok.span.start == a) && decide (a < tok.span.stop) && spanChainB tok.span.stop b ts

/-- Classification of a character as stated by the spec (§4.2 steps
2-5): `:`, `*`, `.` give the corresponding punctuation kinds, whitespace
gives `Spaces`, decimal digits give `Digits`, anything else is an
identifier constituent. -/
def specClassify (c : Char) : TokenKind :=
  if c = ':' then TokenKind.Colon
  else if c = '*' then TokenKind.Star
  else if c = '.' then TokenKind.Dot
  else if is_whitespace c then TokenKind.Spaces
  else if is_digit c then TokenKind.Digits
  else TokenKind.Ident

/-- Termination measure fact for `bump`: on a nonempty source a
successful `bump` strictly shortens the source (it consumes one
character, or two for a carriage return followed by a line feed). -/
theorem bump_some_lt (t t' : Tokenizer) (oc : Option Char) (p : Nat × Char)
    (l : List (Nat × Char)) (hs : t.source = p :: l)
    (hb : bump t = some (oc, t')) :
    t'.source.length < t.source.length := by
  rcases p with ⟨j, d⟩
  simp only [bump, hs] at hb
  split at hb
  · split at hb
    · rcases l with _ | ⟨⟨j2, d2⟩, rest2⟩
      · simp at hb
      · by_cases hd2 : d2 = '\n'
        · subst hd2
          simp at hb
          simp [← hb.2, hs]
          omega
        · simp [hd2] at hb
    · simp at hb
      simp [← hb.2, hs]
  · simp at hb
    simp [← hb.2, hs]

/-- Termination measure fact for `scan_until_loop`: the returned state's
source is no longer than the input's. -/
theorem scan_until_loop_le (n : Nat) :
    ∀ (t : Tokenizer) (start last : Nat) (u : Char → Bool) (s e : Nat) (t' : Tokenizer),
      t.source.length ≤ n →
      scan_until_loop t start last u = some (s, e, t') →
      t'.source.length ≤ t.source.length := by
  induction n with
  | zero =>
    intro t start last u s e t' hn h
    rw [scan_until_loop.eq_def] at h
    split at h
    · simp at h
      simp [h.2.2]
    · rename_i idx c hp
      have hs : t.source = [] := by
        rcases hs : t.source with _ | _
        · rfl
        · simp [hs] at hn
      simp [peek, hs] at hp
  | succ n ih =>
    intro t start last u s e t' hn h
    rw [scan_until_loop.eq_def] at h
    split at h
    · simp at h
      simp [h.2.2]
    · rename_i idx c hp
      split at h
      · simp at h
        simp [h.2.2]
      · split at h
        · exact absurd h (by simp)
        · rename_i oc t1 hb
          rcases hs : t.source with _ | ⟨⟨j, d⟩, rest⟩
          · simp [peek, hs] at hp
          · have hlt : t1.source.length < t.source.length :=
              bump_some_lt t t1 oc (j, d) rest hs hb
            have hbl : t.source.length = rest.length + 1 := by simp [hs]
            have := ih t1 start (idx % U32) u s e t' (by omega) h
            simp only [List.length_cons] at *
            omega

/-- Strict version for a scan whose first peeked character is consumed. -/
theorem scan_until_loop_lt (t : Tokenizer) (start last : Nat) (u : Char → Bool)
    (j : Nat) (d : Char) (rest : List (Nat × Char)) (s e : Nat) (t' : Tokenizer)
    (hs : t.source = (j, d) :: rest) (hu : u d = false)
    (h : scan_until_loop t start last u = some (s, e, t')) :
    t'.source.length < t.source.length := by
  rw [scan_until_loop.eq_def] at h
  split at h
  · rename_i hp
    simp [peek, hs] at hp
  · rename_i idx c hp
    simp only [peek, hs, List.head?] at hp
    rcases hp with ⟨rfl, rfl⟩
    rw [hu] at h
    simp only [Bool.false_eq_true, if_false] at h
    split at h
    · exact absurd h (by simp)
    · rename_i oc t1 hb
      have hlt : t1.source.length < t.source.length :=
        bump_some_lt t t1 oc (j, d) rest hs hb
      have := scan_until_loop_le t1.source.length t1 start (j % U32) u s e t'
        (le_refl _) h
      omega

/-- Termination measure fact for `next`: producing a token strictly
shortens the remaining source. -/
theorem next_some_lt (t : Tokenizer) (tok : Token) (t' : Tokenizer)
    (h : next t = some (some (tok, t'))) :
    t'.source.length < t.source.length := by
  rcases hs : t.source with _ | ⟨⟨j, d⟩, rest⟩
  · simp [next, peek, hs] at h
  · simp only [next, peek, hs, List.head?] at h
    by_cases h1 : d = ':'
    · simp only [h1, if_true] at h
      split at h
      · exact absurd h (by simp)
      · rename_i oc t1 hb
        simp at h
        rw [← h.2]
        simpa [hs] using bump_some_lt t t1 oc _ rest hs hb
    · simp only [h1, if_false] at h
      by_cases h2 : d = '*'
      · simp only [h2, if_true] at h
        split at h
        · exact absurd h (by simp)
        · rename_i oc t1 hb
          simp at h
          rw [← h.2]
          simpa [hs] using bump_some_lt t t1 oc _ rest hs hb
      · simp only [h2, if_false] at h
        by_cases h3 : d = '.'
        · simp only [h3, if_true] at h
          split at h
          · exact absurd h (by simp)
          · rename_i oc t1 hb
            simp at h
            rw [← h.2]
            simpa [hs] using bump_some_lt t t1 oc _ rest hs hb
        · simp only [h3, if_false] at h
          by_cases h4 : is_whitespace d
          · simp only [h4, if_true] at h
            rcases hsc : scan_spaces t (j % U32) with _ | ⟨tok1, t1⟩
            · rw [hsc] at h
              exact absurd h (by simp)
            · rw [hsc] at h
              simp at h
              simp only [scan_spaces, scan_until] at hsc
              split at hsc
              · exact absurd hsc (by simp)
              · rename_i s1 e1 t2 hloop
                simp at hsc
                rw [← h.2, ← hsc.2]
                simpa [hs] using scan_until_loop_lt t (j % U32) (j % U32) _ j d rest s1 e1 t2 hs
                  (by simp [h4]) hloop
          · simp only [h4, if_false] at h
            by_cases h5 : is_digit d
            · simp only [h5, if_true] at h
              rcases hsc : scan_digits t (j % U32) with _ | ⟨tok1, t1⟩
              · rw [hsc] at h
                exact absurd h (by simp)
              · rw [hsc] at h
                simp at h
                simp only [scan_digits, scan_until] at hsc
                split at hsc
                · exact absurd hsc (by simp)
                · rename_i s1 e1 t2 hloop
                  simp at hsc
                  rw [← h.2, ← hsc.2]
                  simpa [hs] using scan_until_loop_lt t (j % U32) (j % U32) _ j d rest s1 e1 t2 hs
                    (by simp [h5]) hloop
            · simp only [h5, if_false] at h
              rcases hsc : scan_ident t (j % U32) with _ | ⟨tok1, t1⟩
              · rw [hsc] at h
                exact absurd h (by simp)
              · rw [hsc] at h
                simp at h
                simp only [scan_ident, scan_until] at hsc
                split at hsc
                · exact absurd hsc (by simp)
                · rename_i s1 e1 t2 hloop
                  simp at hsc
                  rw [← h.2, ← hsc.2]
                  simpa [hs] using scan_until_loop_lt t (j % U32) (j % U32) _ j d rest s1 e1 t2 hs
                    (by simp [is_ident, h1, h2, h3, h4, h5]) hloop

/-- Draining the iterator: collect the tokens produced by repeated calls
to `next` until end of input, propagating aborts. -/
def tokenize (t : Tokenizer) : Option (List Token) :=
  match hn : next t with
  | none => none
  | some none => some []
  | some (some (tok, t')) =>
    match tokenize t' with
    | none => none
    | some ts => some (tok :: ts)
termination_by t.source.length
decreasing_by
  exact next_some_lt t tok t' hn


/-- The partition property of spec §8 for one input: tokenization
succeeds and the produced spans chain exactly over the byte range
`[0, byteLen input)`. -/
def partitionsB (cs : List Char) : Bool :=
  match tokenize (Tokenizer.new cs) with
  | some ts => spanChainB 0 (byteLen cs) ts
  | none => false

theorem tokenize_done (t : Tokenizer) (h : next t = some none) : tokenize t = some [] := by
  rw [tokenize.eq_def]
  split
  · rename_i hn; rw [h] at hn; cases hn
  · rfl
  · rename_i tok t' hn; rw [h] at hn; cases hn

theorem tokenize_abort (t : Tokenizer) (h : next t = none) : tokenize t = none := by
  rw [tokenize.eq_def]
  split
  · rfl
  · rename_i hn; rw [h] at hn; cases hn
  · rename_i tok t' hn; rw [h] at hn; cases hn

theorem tokenize_step_none (t : Tokenizer) (tok : Token) (t' : Tokenizer)
    (h : next t = some (some (tok, t'))) (h2 : tokenize t' = none) : tokenize t = none := by
  rw [tokenize.eq_def]
  split
  · rfl
  · rename_i hn; rw [h] at hn; cases hn
  · rename_i tok1 t1 hn
    rw [h] at hn
    injection hn with hn
    injection hn with hn
    injection hn with ha hb
    subst ha; subst hb
    rw [h2]

theorem tokenize_step_some (t : Tokenizer) (tok : Token) (t' : Tokenizer) (ts : List Token)
    (h : next t = some (some (tok, t'))) (h2 : tokenize t' = some ts) :
    tokenize t = some (tok :: ts) := by
  rw [tokenize.eq_def]
  split
  · rename_i hn; rw [h] at hn; cases hn
  · rename_i hn; rw [h] at hn; cases hn
  · rename_i tok1 t1 hn
    rw [h] at hn
    injection hn with hn
    injection hn with hn
    injection hn with ha hb
    subst ha; subst hb
    rw [h2]

theorem char_ne_cr (c : Char) (h : c.toNat ≠ 13) : c ≠ '\r' := by
  intro hc
  exact h (by rw [hc]; rfl)

theorem charWidth_ascii (c : Char) (h : c.toNat < 128) : charWidth c = 1 := by
  simp [charWidth, h]

theorem bump_nonCR (t : Tokenizer) (j : Nat) (c : Char) (rest : List (Nat × Char))
    (hs : t.source = (j, c) :: rest) (hc : c ≠ '\r') :
    bump t = some (some c,
      { source := rest,
        column := (lcStep (t.line, t.column) c).2,
        line := (lcStep (t.line, t.column) c).1 }) := by
  simp only [bump, hs]
  by_cases hbk : is_break c
  · simp only [hbk, if_true, if_neg hc, lcStep]
  · simp only [hbk, Bool.false_eq_true, if_false, lcStep]

theorem scan_until_go (u : Char → Bool) (cs : List Char) :
    ∀ (i : Nat) (t : Tokenizer) (start last : Nat),
      t.source = charIndicesFrom i cs →
      (∀ c ∈ cs.takeWhile (fun c => !(u c)), c.toNat < 128 ∧ c.toNat ≠ 13) →
      i + (cs.takeWhile (fun c => !(u c))).length < U32 →
      last + 1 = i →
      scan_until_loop t start last u =
        some (start, i + (cs.takeWhile (fun c => !(u c))).length,
          { source := charIndicesFrom (i + (cs.takeWhile (fun c => !(u c))).length)
              (cs.dropWhile (fun c => !(u c))),
            column := (lcAdv (t.line, t.column) (cs.takeWhile (fun c => !(u c)))).2,
            line := (lcAdv (t.line, t.column) (cs.takeWhile (fun c => !(u c)))).1 }) := by
  induction cs with
  | nil =>
    intro i t start last hs hgood hbound hlast
    obtain ⟨src, col, line⟩ := t
    simp only [charIndicesFrom] at hs
    subst hs
    rw [scan_until_loop.eq_def]
    simp only [peek, List.head?, List.takeWhile_nil, List.dropWhile_nil, lcAdv, List.foldl_nil,
      List.length_nil, Nat.add_zero, charIndicesFrom]
    have : last + 1 = i := hlast
    have hi : i < U32 := by omega
    simp [← this, Nat.mod_eq_of_lt hi]
    exact Nat.mod_eq_of_lt (by omega)
  | cons c0 cs' ih =>
    intro i t start last hs hgood hbound hlast
    obtain ⟨src, col, line⟩ := t
    simp only [charIndicesFrom] at hs
    subst hs
    rw [scan_until_loop.eq_def]
    by_cases hu : u c0
    · -- the head already satisfies the exit predicate: nothing is consumed
      simp only [peek, List.head?]
      simp only [List.takeWhile_cons, hu, Bool.not_true, Bool.false_eq_true, if_false]
      simp only [List.dropWhile_cons, hu, Bool.not_true, Bool.false_eq_true, if_false]
      simp only [lcAdv, List.foldl_nil, List.length_nil, Nat.add_zero]
      have hi : i < U32 := by
        simp only [List.takeWhile_cons, hu] at hbound
        simp at hbound
        omega
      simp [hu, ← hlast, Nat.mod_eq_of_lt (by omega : last + 1 < U32), charIndicesFrom]
    · -- consume the head and continue
      have htk : (c0 :: cs').takeWhile (fun c => !(u c)) =
          c0 :: cs'.takeWhile (fun c => !(u c)) := by
        simp [List.takeWhile_cons, hu]
      have hdw : (c0 :: cs').dropWhile (fun c => !(u c)) =
          cs'.dropWhile (fun c => !(u c)) := by
        simp [List.dropWhile_cons, hu]
      have hg0 : c0.toNat < 128 ∧ c0.toNat ≠ 13 := by
        apply hgood
        rw [htk]
        exact List.mem_cons_self _ _
      have hw : charWidth c0 = 1 := charWidth_ascii c0 hg0.1
      have hbmp := bump_nonCR ⟨(i, c0) :: charIndicesFrom (i + charWidth c0) cs', col, line⟩
        i c0 (charIndicesFrom (i + charWidth c0) cs') rfl (char_ne_cr c0 hg0.2)
      simp only [peek, List.head?]
      rw [if_neg (by simp [hu])]
      have hi : i < U32 := by
        rw [htk] at hbound
        simp only [List.length_cons] at hbound
        omega
      split
      · rename_i hb
        rw [hbmp] at hb
        cases hb
      · rename_i oc t1 hb
        rw [hbmp] at hb
        injection hb with hb
        injection hb with ha hb2
        subst hb2
        rw [Nat.mod_eq_of_lt hi]
        have hrec := ih (i + 1)
          ⟨charIndicesFrom (i + charWidth c0) cs',
            (lcStep ((line, col) : Nat × Nat) c0).2, (lcStep ((line, col) : Nat × Nat) c0).1⟩
          start i (by rw [hw]) (by
            intro c hc
            apply hgood
            rw [htk]
            exact List.mem_cons_of_mem _ hc)
          (by rw [htk] at hbound; simp only [List.length_cons] at hbound; omega) rfl
        rw [hrec]
        rw [htk, hdw]
        simp only [List.length_cons, lcAdv, List.foldl_cons]
        have e1 : i + 1 + (List.takeWhile (fun c => !(u c)) cs').length =
            i + ((List.takeWhile (fun c => !(u c)) cs').length + 1) := by omega
        rw [e1]
  

theorem scan_until_run (p : Char → Bool) (c0 : Char) (cs' : List Char) (i : Nat)
    (t : Tokenizer) (start : Nat)
    (hs : t.source = charIndicesFrom i (c0 :: cs'))
    (hp0 : p c0 = true)
    (hgood : ∀ c ∈ (c0 :: cs').takeWhile (fun c => p c), c.toNat < 128 ∧ c.toNat ≠ 13)
    (hbound : i + ((c0 :: cs').takeWhile (fun c => p c)).length < U32) :
    scan_until t start (fun c => !(p c)) =
      some (start, i + ((c0 :: cs').takeWhile (fun c => p c)).length,
        { source := charIndicesFrom (i + ((c0 :: cs').takeWhile (fun c => p c)).length)
            ((c0 :: cs').dropWhile (fun c => p c)),
          column := (lcAdv (t.line, t.column) ((c0 :: cs').takeWhile (fun c => p c))).2,
          line := (lcAdv (t.line, t.column) ((c0 :: cs').takeWhile (fun c => p c))).1 }) := by
  obtain ⟨src, col, line⟩ := t
  simp only [charIndicesFrom] at hs
  subst hs
  have htk : (c0 :: cs').takeWhile (fun c => p c) = c0 :: cs'.takeWhile (fun c => p c) := by
    simp [List.takeWhile_cons, hp0]
  have hdw : (c0 :: cs').dropWhile (fun c => p c) = cs'.dropWhile (fun c => p c) := by
    simp [List.dropWhile_cons, hp0]
  have hg0 : c0.toNat < 128 ∧ c0.toNat ≠ 13 := by
    apply hgood
    rw [htk]
    exact List.mem_cons_self _ _
  have hw : charWidth c0 = 1 := charWidth_ascii c0 hg0.1
  have hi : i < U32 := by
    rw [htk] at hbound
    simp only [List.length_cons] at hbound
    omega
  have hbmp := bump_nonCR ⟨(i, c0) :: charIndicesFrom (i + charWidth c0) cs', col, line⟩
    i c0 (charIndicesFrom (i + charWidth c0) cs') rfl (char_ne_cr c0 hg0.2)
  rw [scan_until]
  rw [scan_until_loop.eq_def]
  simp only [peek, List.head?]
  rw [if_neg (by simp [hp0])]
  split
  · rename_i hb
    rw [hbmp] at hb
    cases hb
  · rename_i oc t1 hb
    rw [hbmp] at hb
    injection hb with hb
    injection hb with ha hb2
    subst hb2
    rw [Nat.mod_eq_of_lt hi]
    have hrec := scan_until_go (fun c => !(p c)) cs' (i + 1)
      ⟨charIndicesFrom (i + charWidth c0) cs',
        (lcStep ((line, col) : Nat × Nat) c0).2, (lcStep ((line, col) : Nat × Nat) c0).1⟩
      start i (by rw [hw]) (by
        intro c hc
        simp only [Bool.not_not] at hc
        apply hgood
        rw [htk]
        exact List.mem_cons_of_mem _ hc)
      (by
        simp only [Bool.not_not]
        rw [htk] at hbound
        simp only [List.length_cons] at hbound
        omega) rfl
    simp only [Bool.not_not] at hrec
    rw [hrec]
    rw [htk, hdw]
    simp only [List.length_cons, lcAdv, List.foldl_cons]
    have e1 : i + 1 + (List.takeWhile (fun c => p c) cs').length =
        i + ((List.takeWhile (fun c => p c) cs').length + 1) := by omega
    rw [e1]

theorem ws_ne_colon (c : Char) (h : is_whitespace c = true) : c ≠ ':' := by
  rintro rfl; exact absurd h (by decide)

theorem ws_ne_star (c : Char) (h : is_whitespace c = true) : c ≠ '*' := by
  rintro rfl; exact absurd h (by decide)

theorem ws_ne_dot (c : Char) (h : is_whitespace c = true) : c ≠ '.' := by
  rintro rfl; exact absurd h (by decide)

theorem digit_ne_colon (c : Char) (h : is_digit c = true) : c ≠ ':' := by
  rintro rfl; exact absurd h (by decide)

theorem digit_ne_star (c : Char) (h : is_digit c = true) : c ≠ '*' := by
  rintro rfl; exact absurd h (by decide)

theorem digit_ne_dot (c : Char) (h : is_digit c = true) : c ≠ '.' := by
  rintro rfl; exact absurd h (by decide)

theorem digit_not_ws (c : Char) (h : is_digit c = true) : is_whitespace c = false := by
  simp only [is_digit, Bool.and_eq_true, decide_eq_true_eq] at h
  simp only [is_whitespace, Bool.or_eq_false_iff, Bool.and_eq_false_iff,
    decide_eq_false_iff_not]
  omega

theorem is_ident_elim (c : Char) (h : is_ident c = true) :
    c ≠ ':' ∧ c ≠ '*' ∧ c ≠ '.' ∧ is_whitespace c = false ∧ is_digit c = false := by
  simp only [is_ident, Bool.not_eq_true', Bool.or_eq_false_iff, decide_eq_false_iff_not] at h
  exact ⟨h.1.1.1.1, h.1.1.1.2, h.1.1.2, h.1.2, h.2⟩

theorem next_ws (i : Nat) (c0 : Char) (cs' : List Char) (t : Tokenizer)
    (hs : t.source = charIndicesFrom i (c0 :: cs'))
    (hc : is_whitespace c0 = true)
    (hgood : ∀ c ∈ (c0 :: cs').takeWhile (fun c => is_whitespace c),
      c.toNat < 128 ∧ c.toNat ≠ 13)
    (hbound : i + ((c0 :: cs').takeWhile (fun c => is_whitespace c)).length < U32) :
    next t = some (some (
      { kind := TokenKind.Spaces,
        span := { column := (lcAdv (t.line, t.column) ((c0 :: cs').takeWhile (fun c => is_whitespace c))).2,
                  line := (lcAdv (t.line, t.column) ((c0 :: cs').takeWhile (fun c => is_whitespace c))).1,
                  start := i,
                  stop := i + ((c0 :: cs').takeWhile (fun c => is_whitespace c)).length } },
      { source := charIndicesFrom (i + ((c0 :: cs').takeWhile (fun c => is_whitespace c)).length)
          ((c0 :: cs').dropWhile (fun c => is_whitespace c)),
        column := (lcAdv (t.line, t.column) ((c0 :: cs').takeWhile (fun c => is_whitespace c))).2,
        line := (lcAdv (t.line, t.column) ((c0 :: cs').takeWhile (fun c => is_whitespace c))).1 })) := by
  have hi : i < U32 := by
    have : (c0 :: cs').takeWhile (fun c => is_whitespace c) =
        c0 :: cs'.takeWhile (fun c => is_whitespace c) := by simp [List.takeWhile_cons, hc]
    rw [this] at hbound
    simp only [List.length_cons] at hbound
    omega
  have hrun := scan_until_run (fun c => is_whitespace c) c0 cs' i t i hs hc hgood hbound
  have hs2 : t.source = (i, c0) :: charIndicesFrom (i + charWidth c0) cs' := by
    rw [hs, charIndicesFrom]
  simp only [next, peek, hs2, List.head?]
  rw [if_neg (ws_ne_colon c0 hc), if_neg (ws_ne_star c0 hc), if_neg (ws_ne_dot c0 hc),
    if_pos hc]
  rw [Nat.mod_eq_of_lt hi]
  simp only [scan_spaces, hrun, make_token]

theorem next_digit (i : Nat) (c0 : Char) (cs' : List Char) (t : Tokenizer)
    (hs : t.source = charIndicesFrom i (c0 :: cs'))
    (hc : is_digit c0 = true)
    (hgood : ∀ c ∈ (c0 :: cs').takeWhile (fun c => is_digit c),
      c.toNat < 128 ∧ c.toNat ≠ 13)
    (hbound : i + ((c0 :: cs').takeWhile (fun c => is_digit c)).length < U32) :
    next t = some (some (
      { kind := TokenKind.Digits,
        span := { column := (lcAdv (t.line, t.column) ((c0 :: cs').takeWhile (fun c => is_digit c))).2,
                  line := (lcAdv (t.line, t.column) ((c0 :: cs').takeWhile (fun c => is_digit c))).1,
                  start := i,
                  stop := i + ((c0 :: cs').takeWhile (fun c => is_digit c)).length } },
      { source := charIndicesFrom (i + ((c0 :: cs').takeWhile (fun c => is_digit c)).length)
          ((c0 :: cs').dropWhile (fun c => is_digit c)),
        column := (lcAdv (t.line, t.column) ((c0 :: cs').takeWhile (fun c => is_digit c))).2,
        line := (lcAdv (t.line, t.column) ((c0 :: cs').takeWhile (fun c => is_digit c))).1 })) := by
  have hi : i < U32 := by
    have : (c0 :: cs').takeWhile (fun c => is_digit c) =
        c0 :: cs'.takeWhile (fun c => is_digit c) := by simp [List.takeWhile_cons, hc]
    rw [this] at hbound
    simp only [List.length_cons] at hbound
    omega
  have hrun := scan_until_run (fun c => is_digit c) c0 cs' i t i hs hc hgood hbound
  have hs2 : t.source = (i, c0) :: charIndicesFrom (i + charWidth c0) cs' := by
    rw [hs, charIndicesFrom]
  simp only [next, peek, hs2, List.head?]
  rw [if_neg (digit_ne_colon c0 hc), if_neg (digit_ne_star c0 hc), if_neg (digit_ne_dot c0 hc),
    if_neg (by simp [digit_not_ws c0 hc]), if_pos hc]
  rw [Nat.mod_eq_of_lt hi]
  simp only [scan_digits, hrun, make_token]

theorem next_ident (i : Nat) (c0 : Char) (cs' : List Char) (t : Tokenizer)
    (hs : t.source = charIndicesFrom i (c0 :: cs'))
    (hc : is_ident c0 = true)
    (hgood : ∀ c ∈ (c0 :: cs').takeWhile (fun c => is_ident c),
      c.toNat < 128 ∧ c.toNat ≠ 13)
    (hbound : i + ((c0 :: cs').takeWhile (fun c => is_ident c)).length < U32) :
    next t = some (some (
      { kind := TokenKind.Ident,
        span := { column := (lcAdv (t.line, t.column) ((c0 :: cs').takeWhile (fun c => is_ident c))).2,
                  line := (lcAdv (t.line, t.column) ((c0 :: cs').takeWhile (fun c => is_ident c))).1,
                  start := i,
                  stop := i + ((c0 :: cs').takeWhile (fun c => is_ident c)).length } },
      { source := charIndicesFrom (i + ((c0 :: cs').takeWhile (fun c => is_ident c)).length)
          ((c0 :: cs').dropWhile (fun c => is_ident c)),
        column := (lcAdv (t.line, t.column) ((c0 :: cs').takeWhile (fun c => is_ident c))).2,
        line := (lcAdv (t.line, t.column) ((c0 :: cs').takeWhile (fun c => is_ident c))).1 })) := by
  obtain ⟨hc1, hc2, hc3, hc4, hc5⟩ := is_ident_elim c0 hc
  have hi : i < U32 := by
    have : (c0 :: cs').takeWhile (fun c => is_ident c) =
        c0 :: cs'.takeWhile (fun c => is_ident c) := by simp [List.takeWhile_cons, hc]
    rw [this] at hbound
    simp only [List.length_cons] at hbound
    omega
  have hrun := scan_until_run (fun c => is_ident c) c0 cs' i t i hs hc hgood hbound
  have hs2 : t.source = (i, c0) :: charIndicesFrom (i + charWidth c0) cs' := by
    rw [hs, charIndicesFrom]
  simp only [next, peek, hs2, List.head?]
  rw [if_neg hc1, if_neg hc2, if_neg hc3, if_neg (by simp [hc4]), if_neg (by simp [hc5])]
  rw [Nat.mod_eq_of_lt hi]
  simp only [scan_ident, hrun, make_token]

theorem next_punct (t : Tokenizer) (j : Nat) (c : Char) (rest : List (Nat × Char))
    (K : TokenKind) (hs : t.source = (j, c) :: rest)
    (hc : (c = ':' ∧ K = TokenKind.Colon) ∨ (c = '*' ∧ K = TokenKind.Star) ∨
      (c = '.' ∧ K = TokenKind.Dot)) :
    next t = some (some (
      { kind := K,
        span := { column := t.column, line := t.line,
                  start := j % U32, stop := (j % U32 + 1) % U32 } },
      { source := rest, column := (t.column + 1) % U16, line := t.line })) := by
  have hb : bump t = some (some c,
      { source := rest, column := (t.column + 1) % U16, line := t.line }) := by
    simp only [bump, hs]
    rcases hc with ⟨rfl, rfl⟩ | ⟨rfl, rfl⟩ | ⟨rfl, rfl⟩ <;>
      rw [if_neg (by decide : ¬(is_break _ = true))]
  simp only [next, peek, hs, List.head?]
  rcases hc with ⟨rfl, rfl⟩ | ⟨rfl, rfl⟩ | ⟨rfl, rfl⟩
  · rw [if_pos rfl]
    simp only [hb, make_token]
  · rw [if_neg (by decide), if_pos rfl]
    simp only [hb, make_token]
  · rw [if_neg (by decide), if_neg (by decide), if_pos rfl]
    simp only [hb, make_token]

theorem takeWhile_le_length (p : Char → Bool) (cs : List Char) :
    (cs.takeWhile p).length ≤ cs.length := by
  induction cs with
  | nil => simp
  | cons a l ih =>
    rw [List.takeWhile_cons]
    by_cases h : p a
    · rw [if_pos h]
      simp only [List.length_cons]
      omega
    · rw [if_neg h]
      simp

theorem mem_of_mem_takeWhile (p : Char → Bool) (cs : List Char) :
    ∀ c ∈ cs.takeWhile p, c ∈ cs := by
  induction cs with
  | nil => intro c hc; cases hc
  | cons a l ih =>
    intro c hc
    rw [List.takeWhile_cons] at hc
    by_cases h : p a
    · rw [if_pos h] at hc
      rcases List.mem_cons.mp hc with rfl | hc2
      · exact List.mem_cons_self _ _
      · exact List.mem_cons_of_mem _ (ih c hc2)
    · rw [if_neg h] at hc
      cases hc

theorem specClassify_ws (c : Char) (h : is_whitespace c = true) :
    specClassify c = TokenKind.Spaces := by
  rw [specClassify, if_neg (ws_ne_colon c h), if_neg (ws_ne_star c h), if_neg (ws_ne_dot c h),
    if_pos h]

theorem specClassify_digit (c : Char) (h : is_digit c = true) :
    specClassify c = TokenKind.Digits := by
  rw [specClassify, if_neg (digit_ne_colon c h), if_neg (digit_ne_star c h),
    if_neg (digit_ne_dot c h), if_neg (by simp [digit_not_ws c h]), if_pos h]

theorem specClassify_ident (c : Char) (h : is_ident c = true) :
    specClassify c = TokenKind.Ident := by
  obtain ⟨h1, h2, h3, h4, h5⟩ := is_ident_elim c h
  rw [specClassify, if_neg h1, if_neg h2, if_neg h3, if_neg (by simp [h4]),
    if_neg (by simp [h5])]

theorem is_ident_intro (c : Char) (h1 : ¬(c = ':')) (h2 : ¬(c = '*')) (h3 : ¬(c = '.'))
    (h4 : is_whitespace c = false) (h5 : is_digit c = false) : is_ident c = true := by
  simp [is_ident, h1, h2, h3, h4, h5]

theorem next_good (i : Nat) (c0 : Char) (cs' : List Char) (t : Tokenizer)
    (hs : t.source = charIndicesFrom i (c0 :: cs'))
    (hgood : Good (c0 :: cs'))
    (hbound : i + (c0 :: cs').length < U32) :
    ∃ (tok : Token) (k : Nat) (cs2 : List Char) (col2 line2 : Nat),
      next t = some (some (tok,
        { source := charIndicesFrom (i + k) cs2, column := col2, line := line2 })) ∧
      1 ≤ k ∧ k + cs2.length = (c0 :: cs').length ∧ (∀ x ∈ cs2, x ∈ c0 :: cs') ∧
      tok.span.start = i ∧ tok.span.stop = i + k ∧ tok.kind = specClassify c0 ∧
      ((tok.kind = TokenKind.Colon ∨ tok.kind = TokenKind.Star ∨ tok.kind = TokenKind.Dot) →
        tok.span.column = t.column ∧ tok.span.line = t.line) ∧
      ((tok.kind = TokenKind.Spaces ∨ tok.kind = TokenKind.Digits ∨ tok.kind = TokenKind.Ident) →
        tok.span.column = col2 ∧ tok.span.line = line2) := by
  have hi : i < U32 := by
    simp only [List.length_cons] at hbound
    omega
  have hi1 : i + 1 < U32 := by
    simp only [List.length_cons] at hbound
    omega
  by_cases h1 : c0 = ':'
  · subst h1
    have hnp := next_punct t i ':' (charIndicesFrom (i + 1) cs') TokenKind.Colon
      (by rw [hs]; rfl) (Or.inl ⟨rfl, rfl⟩)
    rw [Nat.mod_eq_of_lt hi, Nat.mod_eq_of_lt hi1] at hnp
    exact ⟨_, 1, cs', (t.column + 1) % U16, t.line, hnp, le_refl 1, by simp [Nat.add_comm],
      fun x hx => List.mem_cons_of_mem _ hx, rfl, rfl, rfl,
      fun _ => ⟨rfl, rfl⟩, by rintro (h | h | h) <;> exact TokenKind.noConfusion h⟩
  · by_cases h2 : c0 = '*'
    · subst h2
      have hnp := next_punct t i '*' (charIndicesFrom (i + 1) cs') TokenKind.Star
        (by rw [hs]; rfl) (Or.inr (Or.inl ⟨rfl, rfl⟩))
      rw [Nat.mod_eq_of_lt hi, Nat.mod_eq_of_lt hi1] at hnp
      exact ⟨_, 1, cs', (t.column + 1) % U16, t.line, hnp, le_refl 1, by simp [Nat.add_comm],
        fun x hx => List.mem_cons_of_mem _ hx, rfl, rfl, rfl,
        fun _ => ⟨rfl, rfl⟩, by rintro (h | h | h) <;> exact TokenKind.noConfusion h⟩
    · by_cases h3 : c0 = '.'
      · subst h3
        have hnp := next_punct t i '.' (charIndicesFrom (i + 1) cs') TokenKind.Dot
          (by rw [hs]; rfl) (Or.inr (Or.inr ⟨rfl, rfl⟩))
        rw [Nat.mod_eq_of_lt hi, Nat.mod_eq_of_lt hi1] at hnp
        exact ⟨_, 1, cs', (t.column + 1) % U16, t.line, hnp, le_refl 1, by simp [Nat.add_comm],
          fun x hx => List.mem_cons_of_mem _ hx, rfl, rfl, rfl,
          fun _ => ⟨rfl, rfl⟩, by rintro (h | h | h) <;> exact TokenKind.noConfusion h⟩
      · by_cases h4 : is_whitespace c0
        · have hgood' : ∀ c ∈ (c0 :: cs').takeWhile (fun c => is_whitespace c),
              c.toNat < 128 ∧ c.toNat ≠ 13 :=
            fun c hc => hgood c (mem_of_mem_takeWhile _ _ c hc)
          have hk : ((c0 :: cs').takeWhile (fun c => is_whitespace c)).length ≤
              (c0 :: cs').length := takeWhile_le_length _ _
          have hbound' : i + ((c0 :: cs').takeWhile (fun c => is_whitespace c)).length < U32 := by
            omega
          refine ⟨_, _, (c0 :: cs').dropWhile (fun c => is_whitespace c), _, _,
            next_ws i c0 cs' t hs h4 hgood' hbound', ?_, ?_, ?_, rfl, rfl,
            (specClassify_ws c0 h4).symm,
            by rintro (h | h | h) <;> exact TokenKind.noConfusion h,
            fun _ => ⟨rfl, rfl⟩⟩
          · rw [List.takeWhile_cons, h4]
            simp
          · rw [← List.length_append, List.takeWhile_append_dropWhile]
          · intro x hx
            exact (List.dropWhile_suffix _).subset hx
        · by_cases h5 : is_digit c0
          · have hgood' : ∀ c ∈ (c0 :: cs').takeWhile (fun c => is_digit c),
                c.toNat < 128 ∧ c.toNat ≠ 13 :=
              fun c hc => hgood c (mem_of_mem_takeWhile _ _ c hc)
            have hk : ((c0 :: cs').takeWhile (fun c => is_digit c)).length ≤
                (c0 :: cs').length := takeWhile_le_length _ _
            have hbound' : i + ((c0 :: cs').takeWhile (fun c => is_digit c)).length < U32 := by
              omega
            refine ⟨_, _, (c0 :: cs').dropWhile (fun c => is_digit c), _, _,
              next_digit i c0 cs' t hs h5 hgood' hbound', ?_, ?_, ?_, rfl, rfl,
              (specClassify_digit c0 h5).symm,
              by rintro (h | h | h) <;> exact TokenKind.noConfusion h,
              fun _ => ⟨rfl, rfl⟩⟩
            · rw [List.takeWhile_cons, h5]
              simp
            · rw [← List.length_append, List.takeWhile_append_dropWhile]
            · intro x hx
              exact (List.dropWhile_suffix _).subset hx
          · have h6 : is_ident c0 = true :=
              is_ident_intro c0 h1 h2 h3 (by simp at h4; exact h4) (by simp at h5; exact h5)
            have hgood' : ∀ c ∈ (c0 :: cs').takeWhile (fun c => is_ident c),
                c.toNat < 128 ∧ c.toNat ≠ 13 :=
              fun c hc => hgood c (mem_of_mem_takeWhile _ _ c hc)
            have hk : ((c0 :: cs').takeWhile (fun c => is_ident c)).length ≤
                (c0 :: cs').length := takeWhile_le_length _ _
            have hbound' : i + ((c0 :: cs').takeWhile (fun c => is_ident c)).length < U32 := by
              omega
            refine ⟨_, _, (c0 :: cs').dropWhile (fun c => is_ident c), _, _,
              next_ident i c0 cs' t hs h6 hgood' hbound', ?_, ?_, ?_, rfl, rfl,
              (specClassify_ident c0 h6).symm,
              by rintro (h | h | h) <;> exact TokenKind.noConfusion h,
              fun _ => ⟨rfl, rfl⟩⟩
            · rw [List.takeWhile_cons, h6]
              simp
            · rw [← List.length_append, List.takeWhile_append_dropWhile]
            · intro x hx
              exact (List.dropWhile_suffix _).subset hx

theorem tokenize_good : ∀ (n : Nat) (cs : List Char) (i col line : Nat),
    cs.length ≤ n → Good cs → i + cs.length < U32 →
    ∃ ts, tokenize ⟨charIndicesFrom i cs, col, line⟩ = some ts ∧
      spanChainB i (i + cs.length) ts = true := by
  intro n
  induction n with
  | zero =>
    intro cs i col line hn hgood hbound
    have : cs = [] := List.eq_nil_of_length_eq_zero (Nat.le_zero.mp hn)
    subst this
    refine ⟨[], ?_, by simp [spanChainB]⟩
    apply tokenize_done
    simp [next, peek, charIndicesFrom]
  | succ n ih =>
    intro cs i col line hn hgood hbound
    match cs with
    | [] =>
      refine ⟨[], ?_, by simp [spanChainB]⟩
      apply tokenize_done
      simp [next, peek, charIndicesFrom]
    | c0 :: cs' =>
      obtain ⟨tok, k, cs2, col2, line2, hnext, hk1, hklen, hsub, hstart, hstop, hkind, hpc, hsc⟩ :=
        next_good i c0 cs' ⟨charIndicesFrom i (c0 :: cs'), col, line⟩ rfl hgood hbound
      have hgood2 : Good cs2 := fun x hx => hgood x (hsub x hx)
      have hklen' : k + cs2.length = cs'.length + 1 := by
        simpa using hklen
      have hlen2 : cs2.length ≤ n := by
        simp only [List.length_cons] at hn
        omega
      have hbound2 : (i + k) + cs2.length < U32 := by
        simp only [List.length_cons] at hbound
        omega
      obtain ⟨ts, hts, hchain⟩ := ih cs2 (i + k) col2 line2 hlen2 hgood2 hbound2
      refine ⟨tok :: ts, tokenize_step_some _ _ _ _ hnext hts, ?_⟩
      rw [spanChainB]
      have e2 : i + k + cs2.length = i + (c0 :: cs').length := by
        simp only [List.length_cons]
        omega
      rw [e2] at hchain
      rw [hstart, hstop]
      simp only [beq_self_eq_true, Bool.true_and]
      rw [hchain]
      simp only [Bool.and_true]
      simp [decide_eq_true_eq]
      omega

theorem byteLen_ascii (cs : List Char) (h : ∀ c ∈ cs, c.toNat < 128) :
    byteLen cs = cs.length := by
  induction cs with
  | nil => rfl
  | cons c cs ih =>
    rw [byteLen, charWidth_ascii c (h c (List.mem_cons_self _ _)), List.length_cons,
      ih (fun x hx => h x (List.mem_cons_of_mem _ hx))]
    omega

theorem charIndicesFrom_length (cs : List Char) : ∀ i, (charIndicesFrom i cs).length = cs.length := by
  induction cs with
  | nil => intro i; rfl
  | cons c cs ih =>
    intro i
    rw [charIndicesFrom, List.length_cons, List.length_cons, ih]

theorem mem_takeWhile_pred (p : Char → Bool) (cs : List Char) :
    ∀ c ∈ cs.takeWhile p, p c = true := by
  induction cs with
  | nil => intro c hc; cases hc
  | cons a cs ih =>
    intro c hc
    rw [List.takeWhile_cons] at hc
    by_cases ha : p a
    · rw [if_pos ha] at hc
      rcases List.mem_cons.mp hc with rfl | hc2
      · exact ha
      · exact ih c hc2
    · rw [if_neg ha] at hc
      cases hc

theorem takeWhile_replicate_pos (p : Char → Bool) (a : Char) (h : p a = true) (n : Nat) :
    List.takeWhile p (List.replicate n a) = List.replicate n a := by
  induction n with
  | zero => rfl
  | succ n ih =>
    rw [List.replicate_succ, List.takeWhile_cons, if_pos h, ih]

theorem dropWhile_replicate_pos (p : Char → Bool) (a : Char) (h : p a = true) (n : Nat) :
    List.dropWhile p (List.replicate n a) = [] := by
  induction n with
  | zero => rfl
  | succ n ih =>
    rw [List.replicate_succ, List.dropWhile_cons, if_pos h, ih]

theorem lcAdv_replicate_break (a : Char) (hbr : is_break a = true) :
    ∀ (n l c : Nat), lcAdv (l, c) (List.replicate (n + 1) a) = ((l + (n + 1)) % U16, 0) := by
  intro n
  induction n with
  | zero =>
    intro l c
    rw [List.replicate_succ, List.replicate]
    simp [lcAdv, lcStep, hbr]
  | succ n ih =>
    intro l c
    rw [List.replicate_succ]
    have : lcAdv (l, c) (a :: List.replicate (n + 1) a) =
        lcAdv (lcStep (l, c) a) (List.replicate (n + 1) a) := rfl
    rw [this, lcStep, if_pos hbr]
    rw [ih ((l + 1) % U16) 0]
    rw [Nat.mod_add_mod]
    have e : l + 1 + (n + 1) = l + (n + 1 + 1) := by omega
    rw [e]

theorem lcAdv_replicate_nonbreak (a : Char) (hbr : is_break a = false) :
    ∀ (n l c : Nat), lcAdv (l, c) (List.replicate (n + 1) a) = (l, (c + (n + 1)) % U16) := by
  intro n
  induction n with
  | zero =>
    intro l c
    rw [List.replicate_succ, List.replicate]
    simp [lcAdv, lcStep, hbr]
  | succ n ih =>
    intro l c
    rw [List.replicate_succ]
    have : lcAdv (l, c) (a :: List.replicate (n + 1) a) =
        lcAdv (lcStep (l, c) a) (List.replicate (n + 1) a) := rfl
    rw [this, lcStep, if_neg (by simp [hbr])]
    rw [ih l ((c + 1) % U16)]
    rw [Nat.mod_add_mod]
    have e : c + 1 + (n + 1) = c + (n + 1 + 1) := by omega
    rw [e]

theorem tokenize_length : ∀ (n : Nat) (t : Tokenizer) (ts : List Token),
    t.source.length ≤ n → tokenize t = some ts → ts.length ≤ t.source.length := by
  intro n
  induction n with
  | zero =>
    intro t ts hn h
    have hsrc : t.source = [] := List.eq_nil_of_length_eq_zero (Nat.le_zero.mp hn)
    have : next t = some none := by simp [next, peek, hsrc]
    rw [tokenize_done t this] at h
    injection h with h
    subst h
    simp
  | succ n ih =>
    intro t ts hn h
    rcases hnext : next t with _ | onx
    · rw [tokenize_abort t hnext] at h
      cases h
    · rcases onx with _ | ⟨tok, t'⟩
      · rw [tokenize_done t hnext] at h
        injection h with h
        subst h
        simp
      · rcases hts' : tokenize t' with _ | ts'
        · rw [tokenize_step_none t tok t' hnext hts'] at h
          cases h
        · rw [tokenize_step_some t tok t' ts' hnext hts'] at h
          injection h with h
          subst h
          have hlt := next_some_lt t tok t' hnext
          have := ih t' ts' (by omega) hts'
          simp only [List.length_cons]
          omega

theorem eval_next_ab : next (Tokenizer.new ['a', 'b']) =
    some (some ({ kind := TokenKind.Ident,
                  span := { column := 2, line := 0, start := 0, stop := 2 } },
                { source := [], column := 2, line := 0 })) := by
  simp [next, scan_spaces, scan_ident, scan_digits, scan_until, scan_until_loop,
    bump, make_token, peek, Tokenizer.new, charIndicesFrom, charWidth,
    is_break, is_whitespace, is_digit, is_ident, U16, U32]

theorem eval_tokenize_ab : tokenize (Tokenizer.new ['a', 'b']) =
    some [{ kind := TokenKind.Ident,
            span := { column := 2, line := 0, start := 0, stop := 2 } }] := by
  have h2 : next ({ source := [], column := 2, line := 0 } : Tokenizer) = some none := by
    simp [next, peek]
  exact tokenize_step_some _ _ _ _ eval_next_ab (tokenize_done _ h2)

set_option maxRecDepth 4096 in
theorem eval_tokenize_crlf : tokenize (Tokenizer.new ['a', '\r', '\n', 'b']) =
    some [{ kind := TokenKind.Ident, span := { column := 1, line := 0, start := 0, stop := 1 } },
          { kind := TokenKind.Spaces, span := { column := 0, line := 1, start := 1, stop := 2 } },
          { kind := TokenKind.Ident, span := { column := 1, line := 1, start := 3, stop := 4 } }] := by
  have h1 : next (Tokenizer.new ['a', '\r', '\n', 'b']) =
      some (some ({ kind := TokenKind.Ident,
                    span := { column := 1, line := 0, start := 0, stop := 1 } },
                  { source := [(1, '\r'), (2, '\n'), (3, 'b')], column := 1, line := 0 })) := by
    simp [next, scan_spaces, scan_ident, scan_digits, scan_until, scan_until_loop,
      bump, make_token, peek, Tokenizer.new, charIndicesFrom, charWidth,
      is_break, is_whitespace, is_digit, is_ident, U16, U32]
  have h2 : next ({ source := [(1, '\r'), (2, '\n'), (3, 'b')], column := 1, line := 0 } : Tokenizer) =
      some (some ({ kind := TokenKind.Spaces,
                    span := { column := 0, line := 1, start := 1, stop := 2 } },
                  { source := [(3, 'b')], column := 0, line := 1 })) := by
    simp [next, scan_spaces, scan_ident, scan_digits, scan_until, scan_until_loop,
      bump, make_token, peek, charIndicesFrom, charWidth,
      is_break, is_whitespace, is_digit, is_ident, U16, U32]
  have h3 : next ({ source := [(3, 'b')], column := 0, line := 1 } : Tokenizer) =
      some (some ({ kind := TokenKind.Ident,
                    span := { column := 1, line := 1, start := 3, stop := 4 } },
                  { source := [], column := 1, line := 1 })) := by
    simp [next, scan_spaces, scan_ident, scan_digits, scan_until, scan_until_loop,
      bump, make_token, peek, charIndicesFrom, charWidth,
      is_break, is_whitespace, is_digit, is_ident, U16, U32]
  have h4 : next ({ source := [], column := 1, line := 1 } : Tokenizer) = some none := by
    simp [next, peek]
  exact tokenize_step_some _ _ _ _ h1 (tokenize_step_some _ _ _ _ h2
    (tokenize_step_some _ _ _ _ h3 (tokenize_done _ h4)))

set_option maxRecDepth 4096 in
theorem eval_tokenize_lone_cr_mid : tokenize (Tokenizer.new ['a', '\r', 'b']) = none := by
  have h1 : next (Tokenizer.new ['a', '\r', 'b']) =
      some (some ({ kind := TokenKind.Ident,
                    span := { column := 1, line := 0, start := 0, stop := 1 } },
                  { source := [(1, '\r'), (2, 'b')], column := 1, line := 0 })) := by
    simp [next, scan_spaces, scan_ident, scan_digits, scan_until, scan_until_loop,
      bump, make_token, peek, Tokenizer.new, charIndicesFrom, charWidth,
      is_break, is_whitespace, is_digit, is_ident, U16, U32]
  have h2 : next ({ source := [(1, '\r'), (2, 'b')], column := 1, line := 0 } : Tokenizer) =
      none := by
    simp [next, scan_spaces, scan_ident, scan_digits, scan_until, scan_until_loop,
      bump, make_token, peek, charIndicesFrom, charWidth,
      is_break, is_whitespace, is_digit, is_ident, U16, U32]
  exact tokenize_step_none _ _ _ h1 (tokenize_abort _ h2)

set_option maxRecDepth 4096 in
theorem eval_tokenize_lone_cr_end : tokenize (Tokenizer.new ['\r']) = none := by
  have h1 : next (Tokenizer.new ['\r']) = none := by
    simp [next, scan_spaces, scan_ident, scan_digits, scan_until, scan_until_loop,
      bump, make_token, peek, Tokenizer.new, charIndicesFrom, charWidth,
      is_break, is_whitespace, is_digit, is_ident, U16, U32]
  exact tokenize_abort _ h1

theorem eval_tokenize_stars : tokenize (Tokenizer.new ['*', '*']) =
    some [{ kind := TokenKind.Star, span := { column := 0, line := 0, start := 0, stop := 1 } },
          { kind := TokenKind.Star, span := { column := 1, line := 0, start := 1, stop := 2 } }] := by
  have h1 : next (Tokenizer.new ['*', '*']) =
      some (some ({ kind := TokenKind.Star,
                    span := { column := 0, line := 0, start := 0, stop := 1 } },
                  { source := [(1, '*')], column := 1, line := 0 })) := by
    simp [next, scan_spaces, scan_ident, scan_digits, scan_until, scan_until_loop,
      bump, make_token, peek, Tokenizer.new, charIndicesFrom, charWidth,
      is_break, is_whitespace, is_digit, is_ident, U16, U32]
  have h2 : next ({ source := [(1, '*')], column := 1, line := 0 } : Tokenizer) =
      some (some ({ kind := TokenKind.Star,
                    span := { column := 1, line := 0, start := 1, stop := 2 } },
                  { source := [], column := 2, line := 0 })) := by
    simp [next, scan_spaces, scan_ident, scan_digits, scan_until, scan_until_loop,
      bump, make_token, peek, charIndicesFrom, charWidth,
      is_break, is_whitespace, is_digit, is_ident, U16, U32]
  have h3 : next ({ source := [], column := 2, line := 0 } : Tokenizer) = some none := by
    simp [next, peek]
  exact tokenize_step_some _ _ _ _ h1 (tokenize_step_some _ _ _ _ h2 (tokenize_done _ h3))

theorem eval_next_colon : next (Tokenizer.new [':']) =
    some (some ({ kind := TokenKind.Colon,
                  span := { column := 0, line := 0, start := 0, stop := 1 } },
                { source := [], column := 1, line := 0 })) := by
  simp [next, scan_spaces, scan_ident, scan_digits, scan_until, scan_until_loop,
    bump, make_token, peek, Tokenizer.new, charIndicesFrom, charWidth,
    is_break, is_whitespace, is_digit, is_ident, U16, U32]

theorem eval_tokenize_colon : tokenize (Tokenizer.new [':']) =
    some [{ kind := TokenKind.Colon,
            span := { column := 0, line := 0, start := 0, stop := 1 } }] := by
  have h2 : next ({ source := [], column := 1, line := 0 } : Tokenizer) = some none := by
    simp [next, peek]
  exact tokenize_step_some _ _ _ _ eval_next_colon (tokenize_done _ h2)

theorem scan_spaces_kind (t : Tokenizer) (s : Nat) (tok : Token) (t' : Tokenizer)
    (h : scan_spaces t s = some (tok, t')) : tok.kind = TokenKind.Spaces := by
  rw [scan_spaces] at h
  split at h
  · cases h
  · injection h with h
    injection h with h1 h2
    rw [← h1]
    rfl

theorem scan_digits_kind (t : Tokenizer) (s : Nat) (tok : Token) (t' : Tokenizer)
    (h : scan_digits t s = some (tok, t')) : tok.kind = TokenKind.Digits := by
  rw [scan_digits] at h
  split at h
  · cases h
  · injection h with h
    injection h with h1 h2
    rw [← h1]
    rfl

theorem scan_ident_kind (t : Tokenizer) (s : Nat) (tok : Token) (t' : Tokenizer)
    (h : scan_ident t s = some (tok, t')) : tok.kind = TokenKind.Ident := by
  rw [scan_ident] at h
  split at h
  · cases h
  · injection h with h
    injection h with h1 h2
    rw [← h1]
    rfl

/-- Claim C1 (counterexample): the partition property fails as stated.  On the
spec's own example input `"a\r\nb"` the produced spans are
`[0,1) [1,2) [3,4)`: the line feed consumed inside `bump` is never
recorded in a span, leaving a gap at byte 2, so concatenating the spans
does not reconstruct the input. -/
theorem c1_partition_cex : partitionsB ['a', '\r', '\n', 'b'] = false := by
  simp only [partitionsB, eval_tokenize_crlf]
  decide

/-- Claim C1 (amended): for inputs of single-byte (ASCII) characters that
contain no carriage return and have fewer than 2^32 characters, the
produced token spans partition the input: tokenization succeeds, each
span has `start < stop`, the `stop` of each token is the `start` of the
next, and the spans chain exactly over `[0, byteLen input)`. -/
theorem c1_partition (cs : List Char) (hgood : Good cs) (hlen : cs.length < U32) :
    partitionsB cs = true := by
  obtain ⟨ts, hts, hchain⟩ := tokenize_good cs.length cs 0 0 0 (le_refl _) hgood (by omega)
  have hb : byteLen cs = cs.length := byteLen_ascii cs (fun c hc => (hgood c hc).1)
  have hnew : Tokenizer.new cs = ⟨charIndicesFrom 0 cs, 0, 0⟩ := rfl
  simp only [partitionsB, hnew, hts, hb]
  simpa using hchain

/-- Claim C1 (witness): the amended partition property at the input `"a:1"`. -/
theorem c1_partition_witness : partitionsB ['a', ':', '1'] = true :=
  c1_partition ['a', ':', '1'] (by decide) (by decide)

/-- Claim C2: contrary to the claim, advancing the cursor over a carriage
return that is not followed by a line feed runs
`assert_eq!(Some('\n'), self.source.next())` (parser.rs:86) and aborts;
on the input `"a\rb"` the model aborts (`none`) instead of producing
tokens.  The spec (§4.1, §9) states the abort-free behaviour as the
intent and calls the assert a defect, so this is a code bug, not a spec
error. -/
theorem c2_lone_cr_aborts : tokenize (Tokenizer.new ['a', '\r', 'b']) = none :=
  eval_tokenize_lone_cr_mid

/-- Claim C3 (counterexample): the claim that every span's `line`/`column` are
the cursor position at the *start* of the token fails: `make_token` is
called after the scan, so scanned tokens record the position after their
last character.  On input `"ab"` the single identifier token records
column 2, while the cursor column at the start of the token was 0. -/
theorem c3_position_cex :
    next (Tokenizer.new ['a', 'b']) =
      some (some ({ kind := TokenKind.Ident,
                    span := { column := 2, line := 0, start := 0, stop := 2 } },
                  { source := [], column := 2, line := 0 })) ∧
    (Tokenizer.new ['a', 'b']).column = 0 :=
  ⟨eval_next_ab, rfl⟩

/-- Claim C3 (amended): for a cursor over a suffix of a well-formed ASCII,
carriage-return-free input, every produced token has `start` the byte
offset of its first character and `stop = start + (number of characters
consumed)`; the count `k` is tied to the
characters actually consumed: `k` plus the number of remaining source
entries equals the number of remaining input characters (the source
holds one entry per character).  Punctuation tokens (built before the
`bump`) record the cursor `line`/`column` at the start of the token,
while scanned tokens (`Spaces`/`Digits`/`Identifier`, built after the
scan) record the cursor `line`/`column` *after* the token's characters
were consumed, i.e. the updated cursor position. -/
theorem c3_position (i : Nat) (cs : List Char) (col line : Nat) (tok : Token) (t' : Tokenizer)
    (hgood : Good cs) (hbound : i + cs.length < U32)
    (hnext : next ⟨charIndicesFrom i cs, col, line⟩ = some (some (tok, t'))) :
    tok.span.start = i ∧
    (∃ k, 1 ≤ k ∧ k ≤ cs.length ∧ tok.span.stop = i + k ∧
      k + t'.source.length = cs.length) ∧
    ((tok.kind = TokenKind.Colon ∨ tok.kind = TokenKind.Star ∨ tok.kind = TokenKind.Dot) →
      tok.span.column = col ∧ tok.span.line = line) ∧
    ((tok.kind = TokenKind.Spaces ∨ tok.kind = TokenKind.Digits ∨ tok.kind = TokenKind.Ident) →
      tok.span.column = t'.column ∧ tok.span.line = t'.line) := by
  match cs with
  | [] =>
    rw [charIndicesFrom] at hnext
    simp [next, peek] at hnext
  | c0 :: cs' =>
    obtain ⟨tokG, k, cs2, col2, line2, hnextG, hk1, hklen, hsub, hstart, hstop, hkind, hpc, hsc⟩ :=
      next_good i c0 cs' ⟨charIndicesFrom i (c0 :: cs'), col, line⟩ rfl hgood hbound
    rw [hnextG] at hnext
    injection hnext with hnext
    injection hnext with hnext
    injection hnext with ha hb
    subst ha
    subst hb
    refine ⟨hstart, ⟨k, hk1, ?_, hstop, ?_⟩, hpc, hsc⟩
    · have : k + cs2.length = (c0 :: cs').length := hklen
      omega
    · show k + (charIndicesFrom (i + k) cs2).length = (c0 :: cs').length
      rw [charIndicesFrom_length]
      exact hklen

/-- Claim C3 (witness): the amended statement at input `"ab"` (cursor at the
start of the text): the identifier token spans `[0, 2)` and records the
end-of-token cursor position (column 2, line 0). -/
theorem c3_position_witness :
    ({ kind := TokenKind.Ident,
       span := { column := 2, line := 0, start := 0, stop := 2 } } : Token).span.start = 0 ∧
    (∃ k, 1 ≤ k ∧ k ≤ (['a', 'b'] : List Char).length ∧
      ({ kind := TokenKind.Ident,
         span := { column := 2, line := 0, start := 0, stop := 2 } } : Token).span.stop = 0 + k ∧
      k + ({ source := [], column := 2, line := 0 } : Tokenizer).source.length =
        (['a', 'b'] : List Char).length) ∧
    ((({ kind := TokenKind.Ident,
         span := { column := 2, line := 0, start := 0, stop := 2 } } : Token).kind = TokenKind.Colon ∨
      ({ kind := TokenKind.Ident,
         span := { column := 2, line := 0, start := 0, stop := 2 } } : Token).kind = TokenKind.Star ∨
      ({ kind := TokenKind.Ident,
         span := { column := 2, line := 0, start := 0, stop := 2 } } : Token).kind = TokenKind.Dot) →
      ({ kind := TokenKind.Ident,
         span := { column := 2, line := 0, start := 0, stop := 2 } } : Token).span.column = 0 ∧
      ({ kind := TokenKind.Ident,
         span := { column := 2, line := 0, start := 0, stop := 2 } } : Token).span.line = 0) ∧
    ((({ kind := TokenKind.Ident,
         span := { column := 2, line := 0, start := 0, stop := 2 } } : Token).kind = TokenKind.Spaces ∨
      ({ kind := TokenKind.Ident,
         span := { column := 2, line := 0, start := 0, stop := 2 } } : Token).kind = TokenKind.Digits ∨
      ({ kind := TokenKind.Ident,
         span := { column := 2, line := 0, start := 0, stop := 2 } } : Token).kind = TokenKind.Ident) →
      ({ kind := TokenKind.Ident,
         span := { column := 2, line := 0, start := 0, stop := 2 } } : Token).span.column =
        ({ source := [], column := 2, line := 0 } : Tokenizer).column ∧
      ({ kind := TokenKind.Ident,
         span := { column := 2, line := 0, start := 0, stop := 2 } } : Token).span.line =
        ({ source := [], column := 2, line := 0 } : Tokenizer).line) :=
  c3_position 0 ['a', 'b'] 0 0 _ _ (by decide) (by decide) eval_next_ab

/-- Claim C4: every emitted token carries the kind determined by the
classification of the character at the head of the remaining input:
`Colon` for `:`, `Star` for `*`, `Dot` for `.`, `Spaces` for whitespace,
`Digits` for a decimal digit, and `Identifier` for anything else
(`specClassify` states the spec's classification). -/
theorem c4_kind_classification (t : Tokenizer) (j : Nat) (c : Char) (rest : List (Nat × Char))
    (tok : Token) (t' : Tokenizer) (hs : t.source = (j, c) :: rest)
    (hnext : next t = some (some (tok, t'))) :
    tok.kind = specClassify c := by
  by_cases h1 : c = ':'
  · subst h1
    rw [next_punct t j ':' rest TokenKind.Colon hs (Or.inl ⟨rfl, rfl⟩)] at hnext
    injection hnext with h
    injection h with h
    injection h with ha hb
    rw [← ha]
    exact (by decide : TokenKind.Colon = specClassify ':')
  · by_cases h2 : c = '*'
    · subst h2
      rw [next_punct t j '*' rest TokenKind.Star hs (Or.inr (Or.inl ⟨rfl, rfl⟩))] at hnext
      injection hnext with h
      injection h with h
      injection h with ha hb
      rw [← ha]
      exact (by decide : TokenKind.Star = specClassify '*')
    · by_cases h3 : c = '.'
      · subst h3
        rw [next_punct t j '.' rest TokenKind.Dot hs (Or.inr (Or.inr ⟨rfl, rfl⟩))] at hnext
        injection hnext with h
        injection h with h
        injection h with ha hb
        rw [← ha]
        exact (by decide : TokenKind.Dot = specClassify '.')
      · simp only [next, peek, hs, List.head?] at hnext
        rw [if_neg h1, if_neg h2, if_neg h3] at hnext
        by_cases h4 : is_whitespace c
        · rw [if_pos h4] at hnext
          rcases hsc : scan_spaces t (j % U32) with _ | ⟨tok1, t1⟩
          · rw [hsc] at hnext
            cases hnext
          · rw [hsc] at hnext
            injection hnext with h
            injection h with h
            injection h with ha hb
            rw [← ha, specClassify_ws c h4]
            exact scan_spaces_kind t (j % U32) tok1 t1 hsc
        · rw [if_neg h4] at hnext
          by_cases h5 : is_digit c
          · rw [if_pos h5] at hnext
            rcases hsc : scan_digits t (j % U32) with _ | ⟨tok1, t1⟩
            · rw [hsc] at hnext
              cases hnext
            · rw [hsc] at hnext
              injection hnext with h
              injection h with h
              injection h with ha hb
              rw [← ha, specClassify_digit c h5]
              exact scan_digits_kind t (j % U32) tok1 t1 hsc
          · rw [if_neg h5] at hnext
            rcases hsc : scan_ident t (j % U32) with _ | ⟨tok1, t1⟩
            · rw [hsc] at hnext
              cases hnext
            · rw [hsc] at hnext
              injection hnext with h
              injection h with h
              injection h with ha hb
              have h6 : is_ident c = true :=
                is_ident_intro c h1 h2 h3 (by simpa using h4) (by simpa using h5)
              rw [← ha, specClassify_ident c h6]
              exact scan_ident_kind t (j % U32) tok1 t1 hsc

/-- Claim C4 (witness): at input `":"` the emitted token's kind is the spec
classification of `:`. -/
theorem c4_kind_classification_witness :
    ({ kind := TokenKind.Colon,
       span := { column := 0, line := 0, start := 0, stop := 1 } } : Token).kind =
      specClassify ':' :=
  c4_kind_classification (Tokenizer.new [':']) 0 ':' [] _ _ rfl eval_next_colon


/-- Claim C5 (counterexample): the claim that on input `"a\r\nb"` the token
for `b` is at line 1, column 0 fails: the cursor indeed reaches `b` at
line 1, column 0, but `make_token` records the position *after* the
token, so the emitted token for `b` carries line 1, column 1. -/
theorem c5_crlf_cex :
    tokenize (Tokenizer.new ['a', '\r', '\n', 'b']) =
      some [{ kind := TokenKind.Ident, span := { column := 1, line := 0, start := 0, stop := 1 } },
            { kind := TokenKind.Spaces, span := { column := 0, line := 1, start := 1, stop := 2 } },
            { kind := TokenKind.Ident, span := { column := 1, line := 1, start := 3, stop := 4 } }] ∧
    ({ kind := TokenKind.Ident,
       span := { column := 1, line := 1, start := 3, stop := 4 } } : Token).span.column ≠ 0 :=
  ⟨eval_tokenize_crlf, by decide⟩

/-- Claim C5 (amended): a carriage return immediately followed by a line feed
is a single logical break: `bump` consumes both characters, increments
`line` exactly once (wrapping `u16`) and resets `column` to 0 exactly
once.  On input `"a\r\nb"` the token for `b` is on line 1 spanning
`[3,4)`, but its recorded column is 1 (the cursor column after consuming
`b`), not 0. -/
theorem c5_crlf_single_break :
    (∀ (t : Tokenizer) (i j : Nat) (rest : List (Nat × Char)),
      t.source = (i, '\r') :: (j, '\n') :: rest →
      bump t = some (some '\r', { source := rest, column := 0, line := (t.line + 1) % U16 })) ∧
    tokenize (Tokenizer.new ['a', '\r', '\n', 'b']) =
      some [{ kind := TokenKind.Ident, span := { column := 1, line := 0, start := 0, stop := 1 } },
            { kind := TokenKind.Spaces, span := { column := 0, line := 1, start := 1, stop := 2 } },
            { kind := TokenKind.Ident, span := { column := 1, line := 1, start := 3, stop := 4 } }] := by
  refine ⟨?_, eval_tokenize_crlf⟩
  intro t i j rest hs
  have hbrk : is_break '\r' = true := by decide
  simp only [bump, hs, hbrk, if_true]

/-- Claim C5 (witness): the amended break behaviour at a concrete cursor state
on line 7, column 5. -/
theorem c5_crlf_single_break_witness :
    bump { source := [(0, '\r'), (1, '\n')], column := 5, line := 7 } =
      some (some '\r', { source := [], column := 0, line := 8 }) := by
  have h := c5_crlf_single_break.1 ⟨[(0, '\r'), (1, '\n')], 5, 7⟩ 0 1 [] rfl
  simpa [U16] using h

/-- Claim C6: contrary to the claim, the lexer is not total over valid UTF-8
input: a lone carriage return at end of input trips the
`assert_eq!(Some('\n'), self.source.next())` abort in `bump`
(parser.rs:86), so no token sequence is produced for `"\r"`.  The spec
(§7, §9) states totality as the intent and calls the assert a defect, so
this is a code bug. -/
theorem c6_totality_aborts : tokenize (Tokenizer.new ['\r']) = none :=
  eval_tokenize_lone_cr_end

/-- Claim C7: each occurrence of `:`, `*` or `.` always yields its own token
covering exactly one character — its span is `[j, j+1)` (as wrapping
`u32` values) where `j` is its byte offset, and exactly one source entry
is consumed — and the input `"**"` yields exactly two `Star` tokens of
length 1. -/
theorem c7_punct_atomicity :
    (∀ (t : Tokenizer) (j : Nat) (c : Char) (rest : List (Nat × Char))
        (tok : Token) (t' : Tokenizer),
      t.source = (j, c) :: rest → (c = ':' ∨ c = '*' ∨ c = '.') →
      next t = some (some (tok, t')) →
      tok.span.start = j % U32 ∧ tok.span.stop = (j % U32 + 1) % U32 ∧ t'.source = rest) ∧
    tokenize (Tokenizer.new ['*', '*']) =
      some [{ kind := TokenKind.Star, span := { column := 0, line := 0, start := 0, stop := 1 } },
            { kind := TokenKind.Star, span := { column := 1, line := 0, start := 1, stop := 2 } }] := by
  refine ⟨?_, eval_tokenize_stars⟩
  intro t j c rest tok t' hs hc hnext
  rcases hc with rfl | rfl | rfl
  · rw [next_punct t j ':' rest TokenKind.Colon hs (Or.inl ⟨rfl, rfl⟩)] at hnext
    injection hnext with h
    injection h with h
    injection h with ha hb
    rw [← ha, ← hb]
    exact ⟨rfl, rfl, rfl⟩
  · rw [next_punct t j '*' rest TokenKind.Star hs (Or.inr (Or.inl ⟨rfl, rfl⟩))] at hnext
    injection hnext with h
    injection h with h
    injection h with ha hb
    rw [← ha, ← hb]
    exact ⟨rfl, rfl, rfl⟩
  · rw [next_punct t j '.' rest TokenKind.Dot hs (Or.inr (Or.inr ⟨rfl, rfl⟩))] at hnext
    injection hnext with h
    injection h with h
    injection h with ha hb
    rw [← ha, ← hb]
    exact ⟨rfl, rfl, rfl⟩

/-- Claim C7 (witness): the punctuation atomicity at input `":"`. -/
theorem c7_punct_atomicity_witness :
    ({ kind := TokenKind.Colon,
       span := { column := 0, line := 0, start := 0, stop := 1 } } : Token).span.start = 0 % U32 ∧
    ({ kind := TokenKind.Colon,
       span := { column := 0, line := 0, start := 0, stop := 1 } } : Token).span.stop =
      (0 % U32 + 1) % U32 ∧
    ({ source := [], column := 1, line := 0 } : Tokenizer).source = ([] : List (Nat × Char)) :=
  c7_punct_atomicity.1 (Tokenizer.new [':']) 0 ':' [] _ _ rfl (Or.inl rfl) eval_next_colon

/-- Claim C8: a maximal run of consecutive decimal digits is always emitted as
a single `Digits` token spanning the whole run (`stop` is the byte
offset right after the `takeWhile is_digit` prefix) and scanning resumes
at the first non-digit, so the run is never split. -/
theorem c8_digit_run_maximal (t : Tokenizer) (i : Nat) (d : Char) (cs' : List Char)
    (hs : t.source = charIndicesFrom i (d :: cs'))
    (hd : is_digit d = true)
    (hbound : i + (d :: cs').length < U32) :
    ∃ col2 line2,
      next t = some (some (
        { kind := TokenKind.Digits,
          span := { column := col2, line := line2, start := i,
                    stop := i + ((d :: cs').takeWhile (fun c => is_digit c)).length } },
        { source := charIndicesFrom (i + ((d :: cs').takeWhile (fun c => is_digit c)).length)
            ((d :: cs').dropWhile (fun c => is_digit c)),
          column := col2, line := line2 })) := by
  have hgood : ∀ c ∈ (d :: cs').takeWhile (fun c => is_digit c),
      c.toNat < 128 ∧ c.toNat ≠ 13 := by
    intro c hc
    have hdc := mem_takeWhile_pred _ _ c hc
    simp only [is_digit, Bool.and_eq_true, decide_eq_true_eq] at hdc
    omega
  have hk : ((d :: cs').takeWhile (fun c => is_digit c)).length ≤ (d :: cs').length :=
    takeWhile_le_length _ _
  exact ⟨_, _, next_digit i d cs' t hs hd hgood (by omega)⟩

/-- Claim C8 (witness): at input `"12:"` the two digits form one `Digits`
token spanning `[0, 2)` and scanning resumes at the colon. -/
theorem c8_digit_run_maximal_witness :
    ∃ col2 line2,
      next (Tokenizer.new ['1', '2', ':']) = some (some (
        { kind := TokenKind.Digits,
          span := { column := col2, line := line2, start := 0,
                    stop := 0 + ((['1', '2', ':'] : List Char).takeWhile (fun c => is_digit c)).length } },
        { source := charIndicesFrom (0 + ((['1', '2', ':'] : List Char).takeWhile (fun c => is_digit c)).length)
            ((['1', '2', ':'] : List Char).dropWhile (fun c => is_digit c)),
          column := col2, line := line2 })) :=
  c8_digit_run_maximal (Tokenizer.new ['1', '2', ':']) 0 '1' ['2', ':'] rfl (by decide) (by decide)

/-- Claim C9: tokenization terminates on every input: producing a token always
consumes at least one source entry, and any token list the tokenizer
produces for an input has at most as many tokens as the input has
characters. -/
theorem c9_terminates_bounded :
    (∀ (t : Tokenizer) (tok : Token) (t' : Tokenizer),
      next t = some (some (tok, t')) → t'.source.length < t.source.length) ∧
    (∀ (cs : List Char) (ts : List Token),
      tokenize (Tokenizer.new cs) = some ts → ts.length ≤ cs.length) := by
  refine ⟨fun t tok t' h => next_some_lt t tok t' h, fun cs ts h => ?_⟩
  have hlen := tokenize_length (Tokenizer.new cs).source.length (Tokenizer.new cs) ts
    (le_refl _) h
  calc ts.length ≤ (Tokenizer.new cs).source.length := hlen
    _ = cs.length := charIndicesFrom_length cs 0

/-- Claim C9 (witness): the token-count bound at input `":"`. -/
theorem c9_terminates_bounded_witness :
    ([{ kind := TokenKind.Colon,
        span := { column := 0, line := 0, start := 0, stop := 1 } }] : List Token).length ≤
      ([':'] : List Char).length :=
  c9_terminates_bounded.2 [':'] _ eval_tokenize_colon

theorem eval_next_colon_wrap :
    next ({ source := [(4294967301, ':')], column := 0, line := 0 } : Tokenizer) =
      some (some ({ kind := TokenKind.Colon,
                    span := { column := 0, line := 0, start := 5, stop := 6 } },
                  { source := [], column := 1, line := 0 })) := by
  have h := next_punct ({ source := [(4294967301, ':')], column := 0, line := 0 } : Tokenizer)
    4294967301 ':' [] TokenKind.Colon rfl (Or.inl ⟨rfl, rfl⟩)
  have e1 : 4294967301 % U32 = 5 := by norm_num [U32]
  have e2 : (5 + 1) % U32 = 6 := by norm_num [U32]
  have e3 : (0 + 1) % U16 = 1 := by norm_num [U16]
  rw [e1, e2, e3] at h
  exact h

/-- Claim C10: `Span` stores `line`/`column` as `u16` and byte offsets as
`u32`, so recorded positions wrap: an input of `n` line feeds yields one
`Spaces` token whose recorded line is `n % 2^16` (so 65536 line breaks
record line 0), an input of `n` copies of `a` yields one `Identifier`
token whose recorded column is `n % 2^16`, and a `:` at byte offset `j`
yields a token whose span offsets are stored modulo `2^32`. -/
theorem c10_wrapping :
    (∀ n : Nat, 0 < n → n < U32 →
      tokenize (Tokenizer.new (List.replicate n '\n')) =
        some [{ kind := TokenKind.Spaces,
                span := { column := 0, line := n % U16, start := 0, stop := n } }]) ∧
    (∀ n : Nat, 0 < n → n < U32 →
      tokenize (Tokenizer.new (List.replicate n 'a')) =
        some [{ kind := TokenKind.Ident,
                span := { column := n % U16, line := 0, start := 0, stop := n } }]) ∧
    (∀ (t : Tokenizer) (j : Nat) (rest : List (Nat × Char)) (tok : Token) (t' : Tokenizer),
      t.source = (j, ':') :: rest → next t = some (some (tok, t')) →
      tok.span.start = j % U32 ∧ tok.span.stop = (j % U32 + 1) % U32) := by
  refine ⟨?_, ?_, ?_⟩
  · intro n hpos hlt
    match n, hpos with
    | m + 1, _ =>
      have hs : (Tokenizer.new (List.replicate (m + 1) '\n')).source =
          charIndicesFrom 0 ('\n' :: List.replicate m '\n') := by
        rw [Tokenizer.new, List.replicate_succ]
      have hws : is_whitespace '\n' = true := by decide
      have htk : ('\n' :: List.replicate m '\n').takeWhile (fun c => is_whitespace c) =
          List.replicate (m + 1) '\n' := by
        rw [← List.replicate_succ]
        exact takeWhile_replicate_pos _ '\n' hws (m + 1)
      have hdk : ('\n' :: List.replicate m '\n').dropWhile (fun c => is_whitespace c) = [] := by
        rw [← List.replicate_succ]
        exact dropWhile_replicate_pos _ '\n' hws (m + 1)
      have hgood : ∀ c ∈ ('\n' :: List.replicate m '\n').takeWhile (fun c => is_whitespace c),
          c.toNat < 128 ∧ c.toNat ≠ 13 := by
        rw [htk]
        intro c hc
        rw [List.eq_of_mem_replicate hc]
        exact ⟨by decide, by decide⟩
      have hbound : 0 + (('\n' :: List.replicate m '\n').takeWhile
          (fun c => is_whitespace c)).length < U32 := by
        rw [htk, List.length_replicate]
        omega
      have hnext := next_ws 0 '\n' (List.replicate m '\n')
        (Tokenizer.new (List.replicate (m + 1) '\n')) hs hws hgood hbound
      rw [htk, hdk, List.length_replicate] at hnext
      have hlc : lcAdv ((Tokenizer.new (List.replicate (m + 1) '\n')).line,
          (Tokenizer.new (List.replicate (m + 1) '\n')).column)
          (List.replicate (m + 1) '\n') = ((m + 1) % U16, 0) := by
        have := lcAdv_replicate_break '\n' (by decide) m 0 0
        simpa [Tokenizer.new] using this
      rw [hlc] at hnext
      simp only [Nat.zero_add, charIndicesFrom] at hnext
      have hdone : next ({ source := [], column := 0, line := (m + 1) % U16 } : Tokenizer) =
          some none := by
        simp [next, peek]
      exact tokenize_step_some _ _ _ _ hnext (tokenize_done _ hdone)
  · intro n hpos hlt
    match n, hpos with
    | m + 1, _ =>
      have hs : (Tokenizer.new (List.replicate (m + 1) 'a')).source =
          charIndicesFrom 0 ('a' :: List.replicate m 'a') := by
        rw [Tokenizer.new, List.replicate_succ]
      have hid : is_ident 'a' = true := by decide
      have htk : ('a' :: List.replicate m 'a').takeWhile (fun c => is_ident c) =
          List.replicate (m + 1) 'a' := by
        rw [← List.replicate_succ]
        exact takeWhile_replicate_pos _ 'a' hid (m + 1)
      have hdk : ('a' :: List.replicate m 'a').dropWhile (fun c => is_ident c) = [] := by
        rw [← List.replicate_succ]
        exact dropWhile_replicate_pos _ 'a' hid (m + 1)
      have hgood : ∀ c ∈ ('a' :: List.replicate m 'a').takeWhile (fun c => is_ident c),
          c.toNat < 128 ∧ c.toNat ≠ 13 := by
        rw [htk]
        intro c hc
        rw [List.eq_of_mem_replicate hc]
        exact ⟨by decide, by decide⟩
      have hbound : 0 + (('a' :: List.replicate m 'a').takeWhile
          (fun c => is_ident c)).length < U32 := by
        rw [htk, List.length_replicate]
        omega
      have hnext := next_ident 0 'a' (List.replicate m 'a')
        (Tokenizer.new (List.replicate (m + 1) 'a')) hs hid hgood hbound
      rw [htk, hdk, List.length_replicate] at hnext
      have hlc : lcAdv ((Tokenizer.new (List.replicate (m + 1) 'a')).line,
          (Tokenizer.new (List.replicate (m + 1) 'a')).column)
          (List.replicate (m + 1) 'a') = (0, (m + 1) % U16) := by
        have := lcAdv_replicate_nonbreak 'a' (by decide) m 0 0
        simpa [Tokenizer.new] using this
      rw [hlc] at hnext
      simp only [Nat.zero_add, charIndicesFrom] at hnext
      have hdone : next ({ source := [], column := (m + 1) % U16, line := 0 } : Tokenizer) =
          some none := by
        simp [next, peek]
      exact tokenize_step_some _ _ _ _ hnext (tokenize_done _ hdone)
  · intro t j rest tok t' hs hnext
    rw [next_punct t j ':' rest TokenKind.Colon hs (Or.inl ⟨rfl, rfl⟩)] at hnext
    injection hnext with h
    injection h with h
    injection h with ha hb
    rw [← ha]
    exact ⟨rfl, rfl⟩

/-- Claim C10 (witness): an input of 65536 line feeds — more line breaks than
`u16` can count — records line `65536 % 2^16 = 0` in its single token. -/
theorem c10_wrapping_witness :
    (tokenize (Tokenizer.new (List.replicate 65536 '\n')) =
      some [{ kind := TokenKind.Spaces,
              span := { column := 0, line := 0, start := 0, stop := 65536 } }]) ∧
    (({ kind := TokenKind.Colon,
        span := { column := 0, line := 0, start := 5, stop := 6 } } : Token).span.start =
      4294967301 % U32 ∧
     ({ kind := TokenKind.Colon,
        span := { column := 0, line := 0, start := 5, stop := 6 } } : Token).span.stop =
      (4294967301 % U32 + 1) % U32) := by
  constructor
  · have h := c10_wrapping.1 65536 (by norm_num) (by norm_num [U32])
    have e : 65536 % U16 = 0 := by norm_num [U16]
    rw [e] at h
    exact h
  · exact c10_wrapping.2.2 ({ source := [(4294967301, ':')], column := 0, line := 0 } : Tokenizer)
      4294967301 [] _ _ rfl eval_next_colon_wrap


end Diurne
